import Mathlib

/-!
Verification of the `spark-kv` append-only key-value store (src/src/lib.rs).

Strings are modelled as `List Char` (Rust `String` holds unicode scalar
values, as does Lean's `Char`).  The write-ahead-log file is modelled by its
character contents; byte positions are recovered through UTF-8 sizes.

The record codec models `serde_json::to_string` / `serde_json::from_str`
restricted to the derived `WalCommand` shape: serialization emits the fields
in declaration order (`action`, `key`, optional `value`), and the
deserializer modelled here accepts exactly that canonical field order (with
leading/trailing whitespace, full string-escape handling, and rejection of
raw control characters, unknown enum tags and trailing input, as serde_json
does).  Field reordering, non-string field values and surrogate-pair
`\uXXXX` escapes accepted by serde_json are not modelled; no claim depends
on such inputs.
-/

set_option maxRecDepth 10000

/-- Rust `String` / `&str` contents: a sequence of unicode scalar values. -/
abbrev Str := List Char

/-- The `KvAction` enum of the source (`Set`, `Get`, `Rm`). -/
inductive KvAction where
  | Set
  | Get
  | Rm
deriving DecidableEq, Repr

/-- The `WalCommand` struct of the source: an action, a key and an optional
value (`value` is skipped during serialization when `None`). -/
structure WalCommand where
  action : KvAction
  key : Str
  value : Option Str
deriving DecidableEq, Repr

/-- Error kinds a store operation can surface (the source uses the dynamic
`failure::Error`; these constructors name its distinct failure sites). -/
inductive KvError where
  | ioError
  | serError
  | decodeError
  | indexNoValue
  | keyNotFound
deriving DecidableEq, Repr

deriving instance DecidableEq for Except

/-! ## Record codec -/

/-- Lower-case hex digit used by serde_json for `\u00XX` escapes. -/
def hexDigitChar (n : Nat) : Char :=
  if n < 10 then Char.ofNat (48 + n) else Char.ofNat (87 + n)

/-- Value of a hex digit (serde_json accepts both cases when parsing). -/
def hexVal (c : Char) : Option Nat :=
  if '0' ≤ c ∧ c ≤ '9' then some (c.toNat - 48)
  else if 'a' ≤ c ∧ c ≤ 'f' then some (c.toNat - 87)
  else if 'A' ≤ c ∧ c ≤ 'F' then some (c.toNat - 55)
  else none

/-- serde_json's escaping of one character inside a JSON string literal:
quotes and backslashes get a two-character escape, control characters get
their short escape when one exists and `\u00XX` otherwise, everything else
is emitted literally. -/
def escapeChar (c : Char) : Str :=
  if c = '"' then ['\\', '"']
  else if c = '\\' then ['\\', '\\']
  else if 32 ≤ c.toNat then [c]
  else if c.toNat = 8 then ['\\', 'b']
  else if c.toNat = 9 then ['\\', 't']
  else if c.toNat = 10 then ['\\', 'n']
  else if c.toNat = 12 then ['\\', 'f']
  else if c.toNat = 13 then ['\\', 'r']
  else ['\\', 'u', '0', '0', hexDigitChar (c.toNat / 16), hexDigitChar (c.toNat % 16)]

/-- Escape a whole string body. -/
def escapeStr : Str → Str
  | [] => []
  | c :: cs => escapeChar c ++ escapeStr cs

/-- A JSON string literal: quote, escaped body, quote. -/
def jsonString (s : Str) : Str := '"' :: escapeStr s ++ ['"']

/-- serde's serialization of the unit enum variants of `KvAction`. -/
def actionTag : KvAction → Str
  | .Set => "Set".data
  | .Get => "Get".data
  | .Rm => "Rm".data

/-- Models `serde_json::to_string(&WalCommand ...)`: one-line JSON object with the
fields in declaration order; `value` omitted entirely when `None`
(`skip_serializing_if = "Option::is_none"`). -/
def encodeCommand (c : WalCommand) : Str :=
  "\x7b\"action\":".data ++ jsonString (actionTag c.action) ++
  ",\"key\":".data ++ jsonString c.key ++
  (match c.value with
   | some v => ",\"value\":".data ++ jsonString v
   | none => []) ++ "\x7d".data

/-- Consume an exact literal prefix, returning the remainder. -/
def takeLit : Str → Str → Option Str
  | [], cs => some cs
  | _ :: _, [] => none
  | p :: ps, c :: cs => if c = p then takeLit ps cs else none

/-- JSON inter-token whitespace accepted by serde_json. -/
def isJsonWs (c : Char) : Bool :=
  c = ' ' || c = '\t' || c = '\n' || c = '\r'

/-- Drop leading JSON whitespace. -/
def skipWs (cs : Str) : Str := cs.dropWhile isJsonWs

/-- Deserialize a `KvAction` from its variant-name string; an unrecognized
tag is a deserialization error (`unknown variant`). -/
def parseTag (s : Str) : Option KvAction :=
  if s = "Set".data then some KvAction.Set
  else if s = "Get".data then some KvAction.Get
  else if s = "Rm".data then some KvAction.Rm
  else none

/-- Parse the body of a JSON string literal (the part after the opening
quote), returning the decoded contents and the input after the closing
quote.  Handles the escapes serde_json accepts (`\" \\ \/ \b \f \n \r \t`
and non-surrogate `\uXXXX`) and rejects raw control characters. -/
def parseStringBody : Str → Option (Str × Str)
  | [] => none
  | c :: cs =>
    if c = '"' then some ([], cs)
    else if c = '\\' then
      match cs with
      | [] => none
      | e :: cs2 =>
        if e = 'u' then
          match cs2 with
          | h1 :: h2 :: h3 :: h4 :: cs3 =>
            match hexVal h1, hexVal h2, hexVal h3, hexVal h4 with
            | some a, some b, some x, some y =>
              let n := ((a * 16 + b) * 16 + x) * 16 + y
              if 55296 ≤ n ∧ n ≤ 57343 then none
              else (fun p => (Char.ofNat n :: p.1, p.2)) <$> parseStringBody cs3
            | _, _, _, _ => none
          | _ => none
        else
          match unescapeChar e with
          | some d => (fun p => (d :: p.1, p.2)) <$> parseStringBody cs2
          | none => none
    else if c.toNat < 32 then none
    else (fun p => (c :: p.1, p.2)) <$> parseStringBody cs
where
  /-- The single-character escapes serde_json accepts. -/
  unescapeChar (e : Char) : Option Char :=
    if e = '"' then some '"'
    else if e = '\\' then some '\\'
    else if e = '/' then some '/'
    else if e = 'b' then some (Char.ofNat 8)
    else if e = 'f' then some (Char.ofNat 12)
    else if e = 'n' then some '\n'
    else if e = 'r' then some '\r'
    else if e = 't' then some '\t'
    else none

/-- Models `serde_json::from_str::<WalCommand>` on one log line, restricted to the
canonical field order produced by serialization (see module comment):
`none` models a deserialization error. -/
def decodeCommand (cs0 : Str) : Option WalCommand := do
  let cs ← takeLit ("\x7b\"action\":\"".data) (skipWs cs0)
  let (tagS, cs) ← parseStringBody cs
  let act ← parseTag tagS
  let cs ← takeLit (",\"key\":\"".data) cs
  let (k, cs) ← parseStringBody cs
  match takeLit ("\x7d".data) cs with
  | some rest => if skipWs rest = [] then some ⟨act, k, none⟩ else none
  | none => do
    let cs ← takeLit (",\"value\":\"".data) cs
    let (v, cs) ← parseStringBody cs
    let rest ← takeLit ("\x7d".data) cs
    if skipWs rest = [] then some ⟨act, k, some v⟩ else none

/-- A well-formed object line with the canonical shape but an arbitrary
`action` tag string (used to probe tag handling). -/
def canonLine (tag k : Str) : Str :=
  "\x7b\"action\":".data ++ jsonString tag ++
  ",\"key\":".data ++ jsonString k ++ "\x7d".data

/-! ## Rust `str::lines` -/

/-- Emit one accumulated line (the accumulator holds the line reversed);
Rust's `str::lines` strips one trailing carriage return from each line. -/
def emitLine (acc : Str) : Str :=
  match acc with
  | [] => []
  | c :: t => if c = '\r' then t.reverse else (c :: t).reverse

/-- Worker for `splitLines`; `acc` is the current (reversed) partial line. -/
def linesAux : Str → Str → List Str
  | [], acc => if acc = [] then [] else [emitLine acc]
  | c :: cs, acc =>
    if c = '\n' then emitLine acc :: linesAux cs []
    else linesAux cs (c :: acc)

/-- Rust `str::lines`: split at `'\n'`, strip one trailing `'\r'` per line,
and do not produce a final empty line for a trailing terminator. -/
def splitLines (cs : Str) : List Str := linesAux cs []

/-- UTF-8 byte length of a string (Rust `String::len` / file positions). -/
def byteLen (s : Str) : Nat := (s.map Char.utf8Size).sum

/-- Start byte position of record `i` in a log whose records are the lines,
each terminated by a one-byte `'\n'`. -/
def lineStartOffset (w : Str) (i : Nat) : Nat :=
  (((splitLines w).take i).map (fun l => byteLen l + 1)).sum

/-- The byte positions at which some record of the log starts. -/
def recordStarts (w : Str) : List Nat :=
  (List.range (splitLines w).length).map (lineStartOffset w)

/-! ## The store -/

/-- The `KvStore` struct: the in-memory index (`HashMap<String, usize>`,
modelled as an association list with most-recent-insert-first semantics) and
the WAL file handle, modelled by the file's contents plus the prefix of the
contents that is known durable (flushed). -/
structure KvStore where
  data : List (Str × Nat)
  wal : Str
  durable : Str
deriving DecidableEq, Repr

/-- Model of `HashMap::get`: the value of the most recent binding of `k`. -/
def lookupIdx : List (Str × Nat) → Str → Option Nat
  | [], _ => none
  | p :: d, k => if p.1 = k then some p.2 else lookupIdx d k

/-- Remove every binding of `k` (used to model `HashMap` replacement and
`HashMap::remove`). -/
def eraseKey : List (Str × Nat) → Str → List (Str × Nat)
  | [], _ => []
  | p :: d, k => if p.1 = k then eraseKey d k else p :: eraseKey d k

/-- Model of `HashMap::insert`: the new binding replaces any previous one. -/
def insertIdx (d : List (Str × Nat)) (k : Str) (i : Nat) : List (Str × Nat) :=
  (k, i) :: eraseKey d k

/-- Which of `set`/`remove`'s fallible I/O steps succeed in a given run:
serialization, `write_all`, `flush`, the `seek` back to the start, and the
whole-file `read_to_string` whose error `set` discards. -/
structure IoEnv where
  serOk : Bool
  writeOk : Bool
  flushOk : Bool
  seekOk : Bool
  readOk : Bool
deriving DecidableEq, Repr

/-- The run in which every I/O step succeeds. -/
def allOk : IoEnv := ⟨true, true, true, true, true⟩

/-- Model of `KvStore::set` with explicit I/O outcomes, returning the result paired
with the store as left behind (the WAL write persists even when a later
step fails).  Steps in source order: serialize, push `'\n'`, `write_all`,
`flush`, `seek(Start(0))`, `read_to_string` (error discarded; on a failed
read the buffer is left unchanged, hence empty), then
`data.insert(key, lines.len() - 1)`.  The `usize` subtraction is modelled
by truncating `Nat` subtraction: the two agree whenever at least one line
was read, which the C10 theorem shows holds whenever the read succeeds;
when it fails, Rust would panic (debug) or wrap (release), and no claim
depends on the inserted value in that run. -/
def setFull (e : IoEnv) (s : KvStore) (k v : Str) : Except KvError Unit × KvStore :=
  if e.serOk = false then (.error .serError, s)
  else if e.writeOk = false then (.error .ioError, s)
  else
    let s1 : KvStore := { s with wal := s.wal ++ encodeCommand ⟨.Set, k, some v⟩ ++ ['\n'] }
    if e.flushOk = false then (.error .ioError, s1)
    else
      let s2 : KvStore := { s1 with durable := s1.wal }
      if e.seekOk = false then (.error .ioError, s2)
      else
        let walData := if e.readOk then s2.wal else []
        (.ok (), { s2 with data := insertIdx s2.data k ((splitLines walData).length - 1) })

/-- Model of `KvStore::remove` with explicit I/O outcomes.  Absent key: error, no
state change.  Present key: serialize + append a `Rm` record, flush, then
`data.remove(&key)`. -/
def removeFull (e : IoEnv) (s : KvStore) (k : Str) : Except KvError Unit × KvStore :=
  match lookupIdx s.data k with
  | none => (.error .keyNotFound, s)
  | some _ =>
    if e.serOk = false then (.error .serError, s)
    else if e.writeOk = false then (.error .ioError, s)
    else
      let s1 : KvStore := { s with wal := s.wal ++ encodeCommand ⟨.Rm, k, none⟩ ++ ['\n'] }
      if e.flushOk = false then (.error .ioError, s1)
      else (.ok (), { s1 with durable := s1.wal, data := eraseKey s1.data k })

/-- Model of `KvStore::set` in a run where all I/O succeeds. -/
def KvStore.set (s : KvStore) (k v : Str) : KvStore := (setFull allOk s k v).2

/-- Model of `KvStore::remove` in a run where all I/O succeeds. -/
def KvStore.remove (s : KvStore) (k : Str) : Except KvError Unit × KvStore :=
  removeFull allOk s k

/-- Model of `KvStore::get` (in a run where seek/read succeed): look the key up in
the index; if present, take the line at the stored position out of the
whole file, deserialize it, and return its `value`; a missing line yields
`Ok(None)`, a record whose `value` is `None` yields the index error. -/
def KvStore.get (s : KvStore) (k : Str) : Except KvError (Option Str) :=
  match lookupIdx s.data k with
  | some ptr =>
    match (splitLines s.wal)[ptr]? with
    | some line =>
      match decodeCommand line with
      | some c =>
        match c.value with
        | some v => .ok (some v)
        | none => .error .indexNoValue
      | none => .error .decodeError
    | none => .ok none
  | none => .ok none

/-- One step of `open`'s replay loop: `Set` inserts the line index, `Rm`
removes the key, `Get` is skipped (`continue`). -/
def replayStep (d : List (Str × Nat)) (i : Nat) (c : WalCommand) : List (Str × Nat) :=
  match c.action with
  | .Set => insertIdx d c.key i
  | .Rm => eraseKey d c.key
  | .Get => d

/-- Model of the replay loop of `open` over the numbered lines of the file: any line that
fails to deserialize aborts the whole replay. -/
def replayLines : List Str → Nat → List (Str × Nat) → Option (List (Str × Nat))
  | [], _, d => some d
  | l :: ls, i, d =>
    match decodeCommand l with
    | none => none
    | some c => replayLines ls (i + 1) (replayStep d i c)

/-- Model of `KvStore::open`, given the contents of the `kvs.db` file in the target
directory (created empty when absent; opened read+append): build the index
by replaying every line, propagating deserialization failures. -/
def openStore (w : Str) : Except KvError KvStore :=
  match replayLines (splitLines w) 0 [] with
  | some d => .ok ⟨d, w, w⟩
  | none => .error .decodeError

/-- A mutation request against the store. -/
inductive Op where
  | set (k v : Str)
  | remove (k : Str)
deriving DecidableEq, Repr

/-- Apply one request in an all-I/O-succeeds run (a `remove` of an absent
key returns an error and leaves the store unchanged). -/
def applyOp (s : KvStore) : Op → KvStore
  | .set k v => s.set k v
  | .remove k => (s.remove k).2

/-- Apply a sequence of requests. -/
def applyOps (s : KvStore) : List Op → KvStore
  | [] => s
  | o :: os => applyOps (applyOp s o) os

/-- The log file is empty or ends with a newline — true of every file the
engine itself writes (each appended record is newline-terminated). -/
def wellTerminated (w : Str) : Prop := w = [] ∨ w.getLast? = some '\n'

instance (w : Str) : Decidable (wellTerminated w) := by
  unfold wellTerminated; infer_instance

/-- A store with no index entries and an empty log. -/
def emptyStore : KvStore := ⟨[], [], []⟩

/-- A store produced by two `set` operations on an empty store; its log
holds two 39-byte records (38 content bytes plus the newline). -/
def twoSetStore : KvStore :=
  (emptyStore.set ("a".data) ("1".data)).set ("b".data) ("2".data)

/-- The encoded `Set "other" "42"` record (used to build stores whose
index entry disagrees with the log). -/
def wrongRecord : Str :=
  encodeCommand ⟨KvAction.Set, "other".data, some ("42".data)⟩

/-- A store whose only index entry points at a record for another key. -/
def mismatchStore : KvStore :=
  ⟨[("k".data, 0)], wrongRecord ++ ['\n'], wrongRecord ++ ['\n']⟩

/-- A store whose only index entry points past the last line of the log. -/
def outOfRangeStore : KvStore :=
  ⟨[("k".data, 5)], wrongRecord ++ ['\n'], wrongRecord ++ ['\n']⟩

/-- The I/O outcome in which only the post-flush seek fails. -/
def envSeekFail : IoEnv := ⟨true, true, true, false, true⟩

/-- The index/log synchronization invariant, stated over the list of log
lines: every index entry points at a line holding a `Set` record for
exactly that key, and no later line mutates that key (later lines with the
key can only be `Get` records, which replay skips). -/
def LinesOk (ls : List Str) (d : List (Str × Nat)) : Prop :=
  ∀ k i, lookupIdx d k = some i →
    ∃ l c, ls[i]? = some l ∧ decodeCommand l = some c ∧
      c.action = KvAction.Set ∧ c.key = k ∧
      ∀ j l' c', i < j → ls[j]? = some l' → decodeCommand l' = some c' →
        c'.key = k → c'.action = KvAction.Get

/-- Two indexes that answer every lookup identically. -/
def Agrees (d1 d2 : List (Str × Nat)) : Prop :=
  ∀ k, lookupIdx d1 k = lookupIdx d2 k

/-- States reachable through `open` + successful operations: the log is
newline-terminated, replaying it succeeds and rebuilds an index answering
every lookup like the in-memory one, and every index entry satisfies the
index/log synchronization property. -/
structure StoreInv (s : KvStore) : Prop where
  term : wellTerminated s.wal
  replay : ∃ d, replayLines (splitLines s.wal) 0 [] = some d ∧ Agrees d s.data
  lines : LinesOk (splitLines s.wal) s.data

/-! ## Codec lemmas -/

theorem takeLit_append (p rest : Str) : takeLit p (p ++ rest) = some rest := by
  induction p with
  | nil => rfl
  | cons c cs ih => simp [takeLit, ih]

theorem hexVal_hexDigitChar : ∀ n, n < 16 → hexVal (hexDigitChar n) = some n := by
  decide

theorem parseStringBody_escapeChar (c : Char) (tail : Str) (res : Str × Str)
    (h : parseStringBody tail = some res) :
    parseStringBody (escapeChar c ++ tail) = some (c :: res.1, res.2) := by
  unfold escapeChar
  split_ifs with h1 h2 h3 h4 h5 h6 h7 h8
  · subst h1
    rw [List.cons_append, List.cons_append, List.nil_append, parseStringBody.eq_def]
    simp [parseStringBody.unescapeChar, h]
  · subst h2
    rw [List.cons_append, List.cons_append, List.nil_append, parseStringBody.eq_def]
    simp [parseStringBody.unescapeChar, h]
  · rw [List.cons_append, List.nil_append, parseStringBody.eq_def]
    simp [h1, h2, Nat.not_lt.mpr h3, h]
  · have hc : c = Char.ofNat 8 := by rw [← h4, Char.ofNat_toNat]
    rw [List.cons_append, List.cons_append, List.nil_append, parseStringBody.eq_def]
    simp [parseStringBody.unescapeChar, h, hc]
  · have hc : c = Char.ofNat 9 := by rw [← h5, Char.ofNat_toNat]
    rw [List.cons_append, List.cons_append, List.nil_append, parseStringBody.eq_def]
    simp [parseStringBody.unescapeChar, h, hc]
  · have hc : c = Char.ofNat 10 := by rw [← h6, Char.ofNat_toNat]
    rw [List.cons_append, List.cons_append, List.nil_append, parseStringBody.eq_def]
    simp [parseStringBody.unescapeChar, h, hc]
  · have hc : c = Char.ofNat 12 := by rw [← h7, Char.ofNat_toNat]
    rw [List.cons_append, List.cons_append, List.nil_append, parseStringBody.eq_def]
    simp [parseStringBody.unescapeChar, h, hc]
  · have hc : c = Char.ofNat 13 := by rw [← h8, Char.ofNat_toNat]
    rw [List.cons_append, List.cons_append, List.nil_append, parseStringBody.eq_def]
    simp [parseStringBody.unescapeChar, h, hc]
  · have hlt : c.toNat < 32 := by omega
    have hdiv : c.toNat / 16 < 16 := by omega
    have hmod : c.toNat % 16 < 16 := by omega
    rw [List.cons_append, List.cons_append, List.cons_append, List.cons_append,
      List.cons_append, List.cons_append, List.nil_append, parseStringBody.eq_def]
    simp only [reduceIte, reduceCtorEq]
    norm_num
    rw [hexVal_hexDigitChar _ hdiv, hexVal_hexDigitChar _ hmod]
    have hz : hexVal '0' = some 0 := by decide
    rw [hz]
    have hn : ((0 * 16 + 0) * 16 + c.toNat / 16) * 16 + c.toNat % 16 = c.toNat := by
      omega
    simp only [hn]
    have hsur : ¬(55296 ≤ c.toNat ∧ c.toNat ≤ 57343) := by omega
    simp [hsur, h, Char.ofNat_toNat]

theorem parseStringBody_escapeStr (s rest : Str) :
    parseStringBody (escapeStr s ++ '"' :: rest) = some (s, rest) := by
  induction s with
  | nil =>
    rw [escapeStr, List.nil_append, parseStringBody.eq_def]
    simp
  | cons c s ih =>
    rw [escapeStr, List.append_assoc]
    exact parseStringBody_escapeChar c _ (s, rest) ih

theorem parseTag_actionTag (a : KvAction) : parseTag (actionTag a) = some a := by
  cases a <;> rfl

/-- C8 supporting fact: the serialized form of every constructible record
deserializes back to exactly that record. -/
theorem decodeCommand_encodeCommand (c : WalCommand) :
    decodeCommand (encodeCommand c) = some c := by
  obtain ⟨a, k, val⟩ := c
  cases val with
  | none =>
    show decodeCommand
      ("\x7b\"action\":".data ++ jsonString (actionTag a) ++
        ",\"key\":".data ++ jsonString k ++ [] ++ "\x7d".data) = _
    rw [decodeCommand]
    rw [show "\x7b\"action\":".data ++ jsonString (actionTag a) ++
        ",\"key\":".data ++ jsonString k ++ [] ++ "\x7d".data
      = "\x7b\"action\":\"".data ++
        (escapeStr (actionTag a) ++ '"' ::
          (",\"key\":\"".data ++ (escapeStr k ++ '"' :: "\x7d".data))) by
      simp [jsonString]]
    rw [show skipWs ("\x7b\"action\":\"".data ++
        (escapeStr (actionTag a) ++ '"' ::
          (",\"key\":\"".data ++ (escapeStr k ++ '"' :: "\x7d".data))))
      = "\x7b\"action\":\"".data ++
        (escapeStr (actionTag a) ++ '"' ::
          (",\"key\":\"".data ++ (escapeStr k ++ '"' :: "\x7d".data))) from rfl]
    simp only [Option.bind_eq_bind, takeLit_append, Option.some_bind]
    rw [parseStringBody_escapeStr]
    simp only [Option.some_bind]
    rw [parseTag_actionTag]
    simp only [Option.some_bind, takeLit_append]
    rw [parseStringBody_escapeStr]
    simp only [Option.some_bind]
    rw [show takeLit ("\x7d".data) ("\x7d".data) = some [] from rfl]
    rfl
  | some v =>
    show decodeCommand
      ("\x7b\"action\":".data ++ jsonString (actionTag a) ++
        ",\"key\":".data ++ jsonString k ++
        (",\"value\":".data ++ jsonString v) ++ "\x7d".data) = _
    rw [decodeCommand]
    rw [show "\x7b\"action\":".data ++ jsonString (actionTag a) ++
        ",\"key\":".data ++ jsonString k ++
        (",\"value\":".data ++ jsonString v) ++ "\x7d".data
      = "\x7b\"action\":\"".data ++
        (escapeStr (actionTag a) ++ '"' ::
          (",\"key\":\"".data ++ (escapeStr k ++ '"' ::
            (",\"value\":\"".data ++ (escapeStr v ++ '"' :: "\x7d".data))))) by
      simp [jsonString]]
    rw [show skipWs ("\x7b\"action\":\"".data ++
        (escapeStr (actionTag a) ++ '"' ::
          (",\"key\":\"".data ++ (escapeStr k ++ '"' ::
            (",\"value\":\"".data ++ (escapeStr v ++ '"' :: "\x7d".data))))))
      = "\x7b\"action\":\"".data ++
        (escapeStr (actionTag a) ++ '"' ::
          (",\"key\":\"".data ++ (escapeStr k ++ '"' ::
            (",\"value\":\"".data ++ (escapeStr v ++ '"' :: "\x7d".data))))) from rfl]
    simp only [Option.bind_eq_bind, takeLit_append, Option.some_bind]
    rw [parseStringBody_escapeStr]
    simp only [Option.some_bind]
    rw [parseTag_actionTag]
    simp only [Option.some_bind, takeLit_append]
    rw [parseStringBody_escapeStr]
    simp only [Option.some_bind]
    rw [show takeLit ("\x7d".data) (",\"value\":\"".data ++
        (escapeStr v ++ '"' :: "\x7d".data)) = none from rfl]
    simp only [Option.some_bind, takeLit_append]
    rw [parseStringBody_escapeStr]
    simp only [Option.some_bind, takeLit_append]
    rfl

/-! ## Line-splitting lemmas -/

theorem linesAux_newline_split (w : Str) :
    ∀ acc rest, linesAux (w ++ '\n' :: rest) acc
      = linesAux (w ++ ['\n']) acc ++ linesAux rest [] := by
  induction w with
  | nil =>
    intro acc rest
    simp [linesAux]
  | cons c w ih =>
    intro acc rest
    rcases Decidable.em (c = '\n') with hc | hc
    · subst hc
      simp only [List.cons_append, linesAux, List.append_eq, if_true, eq_self_iff_true]
      rw [ih [] rest]
    · simp only [List.cons_append, linesAux, List.append_eq, if_neg hc]
      exact ih (c :: acc) rest

theorem linesAux_no_newline (l : Str) :
    ∀ acc, '\n' ∉ l → linesAux (l ++ ['\n']) acc = [emitLine (l.reverse ++ acc)] := by
  induction l with
  | nil => intro acc _; simp [linesAux]
  | cons c l ih =>
    intro acc h
    have hc : ¬c = '\n' := by
      intro hx; exact h (hx ▸ List.mem_cons_self c l)
    have hl : '\n' ∉ l := fun hx => h (List.mem_cons_of_mem c hx)
    simp only [List.cons_append, linesAux, List.append_eq, if_neg hc]
    rw [ih (c :: acc) hl]
    simp

theorem emitLine_reverse (l : Str) (h : '\r' ∉ l) : emitLine l.reverse = l := by
  rcases hrev : l.reverse with _ | ⟨c, t⟩
  · have hl : l = [] := by simpa using congrArg List.reverse hrev
    simp [hl, emitLine]
  · have hc : ¬c = '\r' := by
      intro hx
      apply h
      rw [← hx, ← List.mem_reverse, hrev]
      exact List.mem_cons_self c t
    rw [emitLine, if_neg hc, ← hrev, List.reverse_reverse]

theorem splitLines_single (l : Str) (hn : '\n' ∉ l) (hr : '\r' ∉ l) :
    splitLines (l ++ ['\n']) = [l] := by
  rw [splitLines, linesAux_no_newline l [] hn]
  rw [List.append_nil, emitLine_reverse l hr]

/-- Appending one newline-free, CR-free, newline-terminated line to a
well-terminated log appends exactly that line to its line decomposition. -/
theorem splitLines_append_line (w l : Str) (hw : wellTerminated w)
    (hn : '\n' ∉ l) (hr : '\r' ∉ l) :
    splitLines (w ++ l ++ ['\n']) = splitLines w ++ [l] := by
  rcases hw with hw | hw
  · subst hw
    rw [List.nil_append, splitLines_single l hn hr]
    rfl
  · obtain ⟨w0, rfl⟩ := List.getLast?_eq_some_iff.mp hw
    have h1 : w0 ++ ['\n'] ++ l ++ ['\n'] = w0 ++ '\n' :: (l ++ ['\n']) := by simp
    rw [h1, splitLines, linesAux_newline_split w0 [] (l ++ ['\n'])]
    rw [show linesAux (w0 ++ ['\n']) [] = splitLines (w0 ++ ['\n']) from rfl]
    rw [show linesAux (l ++ ['\n']) [] = splitLines (l ++ ['\n']) from rfl]
    rw [splitLines_single l hn hr]

theorem linesAux_ne_nil (cs : Str) :
    ∀ acc, cs ≠ [] ∨ acc ≠ [] → linesAux cs acc ≠ [] := by
  induction cs with
  | nil =>
    intro acc h
    rcases h with h | h
    · exact absurd rfl h
    · simp [linesAux, h]
  | cons c cs ih =>
    intro acc _
    rcases Decidable.em (c = '\n') with hc | hc
    · simp [linesAux, hc]
    · rw [show linesAux (c :: cs) acc = linesAux cs (c :: acc) by
        simp [linesAux, hc]]
      exact ih (c :: acc) (Or.inr (by simp))

theorem splitLines_ne_nil (cs : Str) (h : cs ≠ []) : splitLines cs ≠ [] :=
  linesAux_ne_nil cs [] (Or.inl h)

/-! ## Index (association-list) lemmas -/

theorem lookupIdx_erase_self (d : List (Str × Nat)) (k : Str) :
    lookupIdx (eraseKey d k) k = none := by
  induction d with
  | nil => rfl
  | cons p d ih =>
    rcases Decidable.em (p.1 = k) with hp | hp
    · rw [eraseKey, if_pos hp]
      exact ih
    · rw [eraseKey, if_neg hp, lookupIdx, if_neg hp]
      exact ih

theorem lookupIdx_erase_ne (d : List (Str × Nat)) (k k' : Str) (h : k' ≠ k) :
    lookupIdx (eraseKey d k) k' = lookupIdx d k' := by
  induction d with
  | nil => rfl
  | cons p d ih =>
    rcases Decidable.em (p.1 = k) with hp | hp
    · have hk : ¬p.1 = k' := by rw [hp]; exact Ne.symm h
      rw [eraseKey, if_pos hp, show lookupIdx (p :: d) k' = lookupIdx d k' by
        rw [lookupIdx, if_neg hk]]
      exact ih
    · rcases Decidable.em (p.1 = k') with hk | hk
      · rw [eraseKey, if_neg hp, lookupIdx, if_pos hk, lookupIdx, if_pos hk]
      · rw [eraseKey, if_neg hp, lookupIdx, if_neg hk, lookupIdx, if_neg hk]
        exact ih

theorem lookupIdx_insert_self (d : List (Str × Nat)) (k : Str) (i : Nat) :
    lookupIdx (insertIdx d k i) k = some i := by
  rw [insertIdx, lookupIdx, if_pos rfl]

theorem lookupIdx_insert_ne (d : List (Str × Nat)) (k k' : Str) (i : Nat)
    (h : k' ≠ k) : lookupIdx (insertIdx d k i) k' = lookupIdx d k' := by
  rw [insertIdx, lookupIdx, if_neg (by exact fun hx => h hx.symm)]
  exact lookupIdx_erase_ne d k k' h

/-! ## Encoded records contain no newline and no carriage return -/

theorem hexDigitChar_ne_ctl : ∀ n, n < 16 →
    ¬hexDigitChar n = '\n' ∧ ¬hexDigitChar n = '\r' := by
  decide

theorem escapeChar_not_nl_cr (c x : Char) (hx : x ∈ escapeChar c) :
    ¬x = '\n' ∧ ¬x = '\r' := by
  unfold escapeChar at hx
  split_ifs at hx with h1 h2 h3 h4 h5 h6 h7 h8
  · rcases List.mem_cons.mp hx with rfl | hx
    · exact ⟨by decide, by decide⟩
    · rcases List.mem_singleton.mp hx with rfl
      exact ⟨by decide, by decide⟩
  · rcases List.mem_cons.mp hx with rfl | hx
    · exact ⟨by decide, by decide⟩
    · rcases List.mem_singleton.mp hx with rfl
      exact ⟨by decide, by decide⟩
  · rcases List.mem_singleton.mp hx with rfl
    constructor <;> rintro rfl <;> revert h3 <;> decide
  · rcases List.mem_cons.mp hx with rfl | hx
    · exact ⟨by decide, by decide⟩
    · rcases List.mem_singleton.mp hx with rfl
      exact ⟨by decide, by decide⟩
  · rcases List.mem_cons.mp hx with rfl | hx
    · exact ⟨by decide, by decide⟩
    · rcases List.mem_singleton.mp hx with rfl
      exact ⟨by decide, by decide⟩
  · rcases List.mem_cons.mp hx with rfl | hx
    · exact ⟨by decide, by decide⟩
    · rcases List.mem_singleton.mp hx with rfl
      exact ⟨by decide, by decide⟩
  · rcases List.mem_cons.mp hx with rfl | hx
    · exact ⟨by decide, by decide⟩
    · rcases List.mem_singleton.mp hx with rfl
      exact ⟨by decide, by decide⟩
  · rcases List.mem_cons.mp hx with rfl | hx
    · exact ⟨by decide, by decide⟩
    · rcases List.mem_singleton.mp hx with rfl
      exact ⟨by decide, by decide⟩
  · have hdiv : c.toNat / 16 < 16 := by omega
    have hmod : c.toNat % 16 < 16 := by omega
    simp only [List.mem_cons, List.mem_singleton] at hx
    rcases hx with rfl | rfl | rfl | rfl | rfl | hx
    · exact ⟨by decide, by decide⟩
    · exact ⟨by decide, by decide⟩
    · exact ⟨by decide, by decide⟩
    · exact ⟨by decide, by decide⟩
    · exact hexDigitChar_ne_ctl _ hdiv
    · rcases hx with rfl | hx
      · exact hexDigitChar_ne_ctl _ hmod
      · cases hx

theorem escapeStr_not_nl_cr (s : Str) (x : Char) (hx : x ∈ escapeStr s) :
    ¬x = '\n' ∧ ¬x = '\r' := by
  induction s with
  | nil => cases hx
  | cons c s ih =>
    rw [escapeStr] at hx
    rcases List.mem_append.mp hx with h | h
    · exact escapeChar_not_nl_cr c x h
    · exact ih h

theorem encodeCommand_no_nl (c : WalCommand) : '\n' ∉ encodeCommand c := by
  obtain ⟨a, k, val⟩ := c
  intro hx
  cases val with
  | none =>
    simp [encodeCommand, jsonString] at hx
    rcases hx with h | h <;>
      exact (escapeStr_not_nl_cr _ '\n' h).1 rfl
  | some v =>
    simp [encodeCommand, jsonString] at hx
    rcases hx with h | h | h <;>
      exact (escapeStr_not_nl_cr _ '\n' h).1 rfl

theorem encodeCommand_no_cr (c : WalCommand) : '\r' ∉ encodeCommand c := by
  obtain ⟨a, k, val⟩ := c
  intro hx
  cases val with
  | none =>
    simp [encodeCommand, jsonString] at hx
    rcases hx with h | h <;>
      exact (escapeStr_not_nl_cr _ '\r' h).2 rfl
  | some v =>
    simp [encodeCommand, jsonString] at hx
    rcases hx with h | h | h <;>
      exact (escapeStr_not_nl_cr _ '\r' h).2 rfl

/-! ## Replay lemmas -/

theorem replayLines_append_ok (ls : List Str) :
    ∀ i d d' l c, replayLines ls i d = some d' → decodeCommand l = some c →
      replayLines (ls ++ [l]) i d = some (replayStep d' (i + ls.length) c) := by
  induction ls with
  | nil =>
    intro i d d' l c hr hc
    rw [replayLines] at hr
    injection hr with hr
    subst hr
    simp [replayLines, hc]
  | cons l0 ls ih =>
    intro i d d' l c hr hc
    rw [replayLines] at hr
    rcases hd : decodeCommand l0 with _ | c0
    · rw [hd] at hr; cases hr
    · rw [hd] at hr
      have hr' : replayLines ls (i + 1) (replayStep d i c0) = some d' := hr
      rw [List.cons_append, replayLines, hd]
      show replayLines (ls ++ [l]) (i + 1) (replayStep d i c0)
        = some (replayStep d' (i + (l0 :: ls).length) c)
      rw [ih (i + 1) (replayStep d i c0) d' l c hr' hc]
      have harith : i + 1 + ls.length = i + (l0 :: ls).length := by
        rw [List.length_cons]; omega
      rw [harith]

theorem lookupIdx_insert_cases (d : List (Str × Nat)) (kk k : Str) (ii i : Nat)
    (h : lookupIdx (insertIdx d kk ii) k = some i) :
    (k = kk ∧ i = ii) ∨ (¬k = kk ∧ lookupIdx d k = some i) := by
  rcases Decidable.em (k = kk) with hk | hk
  · subst hk
    rw [lookupIdx_insert_self] at h
    injection h with h
    exact Or.inl ⟨rfl, h.symm⟩
  · rw [lookupIdx_insert_ne d kk k ii hk] at h
    exact Or.inr ⟨hk, h⟩

theorem lookupIdx_erase_cases (d : List (Str × Nat)) (kk k : Str) (i : Nat)
    (h : lookupIdx (eraseKey d kk) k = some i) :
    ¬k = kk ∧ lookupIdx d k = some i := by
  rcases Decidable.em (k = kk) with hk | hk
  · subst hk
    rw [lookupIdx_erase_self] at h
    cases h
  · rw [lookupIdx_erase_ne d kk k hk] at h
    exact ⟨hk, h⟩

theorem linesOk_preserved_entry (ls : List Str) (l : Str) (d : List (Str × Nat))
    (hok : LinesOk ls d) (c : WalCommand) (hc : decodeCommand l = some c)
    (k : Str) (i : Nat) (hsafe : ¬k = c.key ∨ c.action = KvAction.Get)
    (hi : lookupIdx d k = some i) :
    ∃ l0 c0, (ls ++ [l])[i]? = some l0 ∧ decodeCommand l0 = some c0 ∧
      c0.action = KvAction.Set ∧ c0.key = k ∧
      ∀ j l' c', i < j → (ls ++ [l])[j]? = some l' → decodeCommand l' = some c' →
        c'.key = k → c'.action = KvAction.Get := by
  obtain ⟨l0, c0, hl0, hc0, hact, hkey, hlater⟩ := hok k i hi
  have hilen : i < ls.length := (List.getElem?_eq_some.mp hl0).1
  refine ⟨l0, c0, ?_, hc0, hact, hkey, ?_⟩
  · rw [List.getElem?_append, if_pos hilen]
    exact hl0
  · intro j l' c' hij hgt hdec hkeq
    rcases Decidable.em (j < ls.length) with hj | hj
    · rw [List.getElem?_append, if_pos hj] at hgt
      exact hlater j l' c' hij hgt hdec hkeq
    · rcases Decidable.em (j = ls.length) with hje | hje
      · subst hje
        rw [List.getElem?_concat_length] at hgt
        injection hgt with hgt
        subst hgt
        rw [hdec] at hc
        injection hc with hc
        subst hc
        rcases hsafe with hk | hget
        · exact absurd hkeq.symm hk
        · exact hget
      · have hout : (ls ++ [l]).length ≤ j := by
          simp only [List.length_append, List.length_singleton]
          omega
        rw [List.getElem?_eq_none hout] at hgt
        cases hgt

theorem linesOk_step (ls : List Str) (l : Str) (d : List (Str × Nat))
    (hok : LinesOk ls d) (c : WalCommand) (hc : decodeCommand l = some c) :
    LinesOk (ls ++ [l]) (replayStep d ls.length c) := by
  intro k i hi
  rcases hact : c.action with _ | _ | _
  · rw [replayStep, hact] at hi
    rcases lookupIdx_insert_cases d c.key k ls.length i hi with ⟨rfl, rfl⟩ | ⟨hk, hold⟩
    · refine ⟨l, c, List.getElem?_concat_length ls l, hc, hact, rfl, ?_⟩
      intro j l' c' hij hgt _ _
      have hout : (ls ++ [l]).length ≤ j := by
        simp only [List.length_append, List.length_singleton]
        omega
      rw [List.getElem?_eq_none hout] at hgt
      cases hgt
    · exact linesOk_preserved_entry ls l d hok c hc k i (Or.inl hk) hold
  · rw [replayStep, hact] at hi
    exact linesOk_preserved_entry ls l d hok c hc k i (Or.inr hact) hi
  · rw [replayStep, hact] at hi
    obtain ⟨hk, hold⟩ := lookupIdx_erase_cases d c.key k i hi
    exact linesOk_preserved_entry ls l d hok c hc k i (Or.inl hk) hold

theorem replayLines_linesOk (ls : List Str) :
    ∀ P d d', LinesOk P d → replayLines ls P.length d = some d' →
      LinesOk (P ++ ls) d' := by
  induction ls with
  | nil =>
    intro P d d' hok hr
    rw [replayLines] at hr
    injection hr with hr
    subst hr
    simpa using hok
  | cons l ls ih =>
    intro P d d' hok hr
    rw [replayLines] at hr
    rcases hd : decodeCommand l with _ | c
    · rw [hd] at hr; cases hr
    · rw [hd] at hr
      have hr' : replayLines ls (P.length + 1) (replayStep d P.length c) = some d' := hr
      have hstep := linesOk_step P l d hok c hd
      have hlen : (P ++ [l]).length = P.length + 1 := by simp
      have hres := ih (P ++ [l]) (replayStep d P.length c) d' hstep (by rw [hlen]; exact hr')
      rw [List.append_assoc] at hres
      simpa using hres

theorem agrees_insert (d1 d2 : List (Str × Nat)) (h : Agrees d1 d2) (k : Str) (i : Nat) :
    Agrees (insertIdx d1 k i) (insertIdx d2 k i) := by
  intro k'
  rcases Decidable.em (k' = k) with rfl | hk
  · rw [lookupIdx_insert_self, lookupIdx_insert_self]
  · rw [lookupIdx_insert_ne _ _ _ _ hk, lookupIdx_insert_ne _ _ _ _ hk]
    exact h k'

theorem agrees_erase (d1 d2 : List (Str × Nat)) (h : Agrees d1 d2) (k : Str) :
    Agrees (eraseKey d1 k) (eraseKey d2 k) := by
  intro k'
  rcases Decidable.em (k' = k) with rfl | hk
  · rw [lookupIdx_erase_self, lookupIdx_erase_self]
  · rw [lookupIdx_erase_ne _ _ _ hk, lookupIdx_erase_ne _ _ _ hk]
    exact h k'

theorem linesOk_of_agrees (ls : List Str) (d1 d2 : List (Str × Nat))
    (ha : Agrees d1 d2) (h : LinesOk ls d2) : LinesOk ls d1 := by
  intro k i hi
  exact h k i (by rw [← ha k]; exact hi)

/-! ## Operation equations -/

theorem set_eq (s : KvStore) (k v : Str) :
    s.set k v =
      { data := insertIdx s.data k
          ((splitLines (s.wal ++ encodeCommand ⟨KvAction.Set, k, some v⟩ ++ ['\n'])).length - 1),
        wal := s.wal ++ encodeCommand ⟨KvAction.Set, k, some v⟩ ++ ['\n'],
        durable := s.wal ++ encodeCommand ⟨KvAction.Set, k, some v⟩ ++ ['\n'] } := rfl

theorem set_eq_of_term (s : KvStore) (k v : Str) (hw : wellTerminated s.wal) :
    s.set k v =
      { data := insertIdx s.data k (splitLines s.wal).length,
        wal := s.wal ++ encodeCommand ⟨KvAction.Set, k, some v⟩ ++ ['\n'],
        durable := s.wal ++ encodeCommand ⟨KvAction.Set, k, some v⟩ ++ ['\n'] } := by
  rw [set_eq]
  rw [splitLines_append_line s.wal _ hw (encodeCommand_no_nl _) (encodeCommand_no_cr _)]
  simp

theorem remove_eq_none (s : KvStore) (k : Str) (h : lookupIdx s.data k = none) :
    s.remove k = (.error .keyNotFound, s) := by
  rw [KvStore.remove, removeFull, h]

theorem remove_eq_some (s : KvStore) (k : Str) (i : Nat)
    (h : lookupIdx s.data k = some i) :
    s.remove k =
      (.ok (),
        { data := eraseKey s.data k,
          wal := s.wal ++ encodeCommand ⟨KvAction.Rm, k, none⟩ ++ ['\n'],
          durable := s.wal ++ encodeCommand ⟨KvAction.Rm, k, none⟩ ++ ['\n'] }) := by
  rw [KvStore.remove, removeFull, h]
  rfl

/-! ## The reachable-state invariant -/

theorem inv_open (w : Str) (s : KvStore) (hw : wellTerminated w)
    (h : openStore w = .ok s) : StoreInv s := by
  rw [openStore] at h
  rcases hr : replayLines (splitLines w) 0 [] with _ | d
  · rw [hr] at h; cases h
  · rw [hr] at h
    have hs : KvStore.mk d w w = s := by injection h
    subst hs
    refine ⟨hw, ⟨d, hr, fun k => rfl⟩, ?_⟩
    have h0 : LinesOk ([] : List Str) [] := by
      intro k i hi; cases hi
    have hres := replayLines_linesOk (splitLines w) [] [] d h0 hr
    simpa using hres

theorem inv_set (s : KvStore) (k v : Str) (hinv : StoreInv s) :
    StoreInv (s.set k v) := by
  obtain ⟨hterm, ⟨d, hr, hag⟩, hlines⟩ := hinv
  have hsplit : splitLines (s.wal ++ encodeCommand ⟨KvAction.Set, k, some v⟩ ++ ['\n'])
      = splitLines s.wal ++ [encodeCommand ⟨KvAction.Set, k, some v⟩] :=
    splitLines_append_line _ _ hterm (encodeCommand_no_nl _) (encodeCommand_no_cr _)
  rw [set_eq_of_term s k v hterm]
  refine ⟨?_, ?_, ?_⟩
  · right
    show (s.wal ++ encodeCommand ⟨KvAction.Set, k, some v⟩ ++ ['\n']).getLast? = some '\n'
    exact List.getLast?_concat _
  · refine ⟨insertIdx d k (splitLines s.wal).length, ?_, ?_⟩
    · show replayLines
        (splitLines (s.wal ++ encodeCommand ⟨KvAction.Set, k, some v⟩ ++ ['\n'])) 0 [] = _
      rw [hsplit, replayLines_append_ok (splitLines s.wal) 0 [] d _ _ hr
        (decodeCommand_encodeCommand ⟨KvAction.Set, k, some v⟩)]
      show some (insertIdx d k (0 + (splitLines s.wal).length)) = _
      rw [Nat.zero_add]
    · exact agrees_insert d s.data hag k _
  · show LinesOk
      (splitLines (s.wal ++ encodeCommand ⟨KvAction.Set, k, some v⟩ ++ ['\n'])) _
    rw [hsplit]
    exact linesOk_step (splitLines s.wal) _ s.data hlines _
      (decodeCommand_encodeCommand ⟨KvAction.Set, k, some v⟩)

theorem inv_remove (s : KvStore) (k : Str) (hinv : StoreInv s) :
    StoreInv (s.remove k).2 := by
  obtain ⟨hterm, ⟨d, hr, hag⟩, hlines⟩ := hinv
  rcases hl : lookupIdx s.data k with _ | i
  · rw [remove_eq_none s k hl]
    exact ⟨hterm, ⟨d, hr, hag⟩, hlines⟩
  · have hsplit : splitLines (s.wal ++ encodeCommand ⟨KvAction.Rm, k, none⟩ ++ ['\n'])
        = splitLines s.wal ++ [encodeCommand ⟨KvAction.Rm, k, none⟩] :=
      splitLines_append_line _ _ hterm (encodeCommand_no_nl _) (encodeCommand_no_cr _)
    rw [remove_eq_some s k i hl]
    refine ⟨?_, ?_, ?_⟩
    · right
      show (s.wal ++ encodeCommand ⟨KvAction.Rm, k, none⟩ ++ ['\n']).getLast? = some '\n'
      exact List.getLast?_concat _
    · refine ⟨eraseKey d k, ?_, ?_⟩
      · show replayLines
          (splitLines (s.wal ++ encodeCommand ⟨KvAction.Rm, k, none⟩ ++ ['\n'])) 0 [] = _
        rw [hsplit, replayLines_append_ok (splitLines s.wal) 0 [] d _ _ hr
          (decodeCommand_encodeCommand ⟨KvAction.Rm, k, none⟩)]
        rfl
      · exact agrees_erase d s.data hag k
    · show LinesOk
        (splitLines (s.wal ++ encodeCommand ⟨KvAction.Rm, k, none⟩ ++ ['\n'])) _
      rw [hsplit]
      exact linesOk_step (splitLines s.wal) _ s.data hlines _
        (decodeCommand_encodeCommand ⟨KvAction.Rm, k, none⟩)

theorem inv_applyOp (s : KvStore) (o : Op) (h : StoreInv s) : StoreInv (applyOp s o) := by
  cases o with
  | set k v => exact inv_set s k v h
  | remove k => exact inv_remove s k h

theorem inv_applyOps (ops : List Op) :
    ∀ s, StoreInv s → StoreInv (applyOps s ops) := by
  induction ops with
  | nil => intro s h; exact h
  | cons o os ih =>
    intro s h
    exact ih (applyOp s o) (inv_applyOp s o h)

theorem get_congr (d1 : List (Str × Nat)) (w dur : Str) (s : KvStore)
    (hw : s.wal = w) (hag : Agrees d1 s.data) (k : Str) :
    KvStore.get ⟨d1, w, dur⟩ k = s.get k := by
  simp only [KvStore.get, hag k, hw]

/-- C1: on a store whose log is well terminated (true of every log the
engine itself produces), a successful `set(k, v)` followed by `get(k)`
returns `Some(v)`, for all keys and values, including empty strings and
strings containing quotes, braces, commas, colons, backslashes or any
other non-newline content (newlines also work: they are escaped). -/
theorem set_then_get_returns_value (s : KvStore) (k v : Str)
    (hw : wellTerminated s.wal) :
    (s.set k v).get k = .ok (some v) := by
  have hsplit : splitLines (s.wal ++ encodeCommand ⟨KvAction.Set, k, some v⟩ ++ ['\n'])
      = splitLines s.wal ++ [encodeCommand ⟨KvAction.Set, k, some v⟩] :=
    splitLines_append_line _ _ hw (encodeCommand_no_nl _) (encodeCommand_no_cr _)
  rw [set_eq_of_term s k v hw, KvStore.get]
  simp only [lookupIdx_insert_self, hsplit, List.getElem?_concat_length,
    decodeCommand_encodeCommand]

/-- C1 witness: a concrete store, key and value. -/
theorem set_then_get_returns_value_witness :
    wellTerminated emptyStore.wal ∧
    (emptyStore.set ("a".data) ("1".data)).get ("a".data) = .ok (some ("1".data)) :=
  ⟨Or.inl rfl, set_then_get_returns_value emptyStore ("a".data) ("1".data) (Or.inl rfl)⟩

/-- C2: opening a directory whose log file is well terminated (every log
the engine writes is) and applying any sequence of `set`/`remove`
operations, then re-`open`ing over the resulting log file, yields an
engine whose `get` result agrees with the pre-reopen engine on every
key. -/
theorem replay_equivalence (w0 : Str) (s0 : KvStore) (ops : List Op)
    (hw : wellTerminated w0) (hopen : openStore w0 = .ok s0) :
    ∃ s', openStore (applyOps s0 ops).wal = .ok s' ∧
      ∀ k, s'.get k = (applyOps s0 ops).get k := by
  obtain ⟨hterm, ⟨d, hr, hag⟩, hlines⟩ :=
    inv_applyOps ops s0 (inv_open w0 s0 hw hopen)
  refine ⟨⟨d, (applyOps s0 ops).wal, (applyOps s0 ops).wal⟩, ?_, ?_⟩
  · rw [openStore, hr]
  · intro k
    exact get_congr d (applyOps s0 ops).wal (applyOps s0 ops).wal
      (applyOps s0 ops) rfl hag k

/-- C2 witness: a concrete run with one `set` and one `remove`. -/
theorem replay_equivalence_witness :
    wellTerminated ([] : Str) ∧ openStore [] = .ok emptyStore ∧
    ∃ s', openStore
        (applyOps emptyStore [Op.set ("a".data) ("1".data), Op.remove ("a".data)]).wal
        = .ok s' ∧
      ∀ k, s'.get k =
        (applyOps emptyStore [Op.set ("a".data) ("1".data), Op.remove ("a".data)]).get k :=
  ⟨Or.inl rfl, rfl,
    replay_equivalence [] emptyStore
      [Op.set ("a".data) ("1".data), Op.remove ("a".data)] (Or.inl rfl) rfl⟩

/-- C3 counterexample: the value stored in the index is a zero-based line
number, not a byte position.  After two sets, the entry for `"b"` is `1`,
but the records of the log start at byte positions `0` and `39`; position
`1` is the interior of the first record, so the stored value does not
point (as a byte offset) to the start of any record, let alone a `Set`
record for `"b"`. -/
theorem index_entry_is_not_byte_position :
    lookupIdx twoSetStore.data ("b".data) = some 1 ∧
    recordStarts twoSetStore.wal = [0, 39] ∧
    1 ∉ recordStarts twoSetStore.wal := by
  refine ⟨by decide, by decide, ?_⟩
  intro h
  rw [show recordStarts twoSetStore.wal = [0, 39] from by decide] at h
  simp at h

/-- C3 (amended): after every sequence of successful open/set/remove
operations (starting from `open` on a well-terminated log), every key
present in the index maps to the zero-based line number of a line of the
log that holds a `Set` record whose key equals that key, and no later
line mutates that key — later records for the key can only carry the
replay-skipped `Get` tag — so the entry designates the most recent
`Set`/`Remove` record for the key. -/
theorem index_points_at_latest_set_line (w0 : Str) (s0 : KvStore) (ops : List Op)
    (hw : wellTerminated w0) (hopen : openStore w0 = .ok s0) :
    LinesOk (splitLines (applyOps s0 ops).wal) (applyOps s0 ops).data :=
  (inv_applyOps ops s0 (inv_open w0 s0 hw hopen)).lines

/-- C3 witness: the invariant instantiated on a concrete run. -/
theorem index_points_at_latest_set_line_witness :
    wellTerminated ([] : Str) ∧
    LinesOk
      (splitLines (applyOps emptyStore [Op.set ("a".data) ("1".data)]).wal)
      (applyOps emptyStore [Op.set ("a".data) ("1".data)]).data :=
  ⟨Or.inl rfl,
    index_points_at_latest_set_line [] emptyStore
      [Op.set ("a".data) ("1".data)] (Or.inl rfl) rfl⟩

theorem byteLen_append (a b : Str) : byteLen (a ++ b) = byteLen a + byteLen b := by
  simp [byteLen]

/-- C4 counterexample: after `set("a","1"); set("b","2")` from an empty
store, the index entry for `"b"` is `1` (a line count), while the record
appended for `"b"` starts at byte offset `39`; the entry does not equal
the record's start byte offset. -/
theorem index_entry_differs_from_start_offset :
    lookupIdx twoSetStore.data ("b".data) = some 1 ∧
    lineStartOffset twoSetStore.wal 1 = 39 := by
  decide

/-- C4 (amended): a successful `set` on a well-terminated log grows the
log file's end-of-file by exactly the byte length of the encoded record
plus its newline terminator (a strictly positive amount), and the index
entry written for the key is the zero-based line index of the appended
record (the number of lines the log held before the append), not a byte
offset. -/
theorem set_grows_eof_and_stores_line_index (s : KvStore) (k v : Str)
    (hw : wellTerminated s.wal) :
    byteLen (s.set k v).wal
      = byteLen s.wal + (byteLen (encodeCommand ⟨KvAction.Set, k, some v⟩) + 1) ∧
    0 < byteLen (encodeCommand ⟨KvAction.Set, k, some v⟩) + 1 ∧
    lookupIdx (s.set k v).data k = some (splitLines s.wal).length := by
  rw [set_eq_of_term s k v hw]
  refine ⟨?_, by omega, lookupIdx_insert_self _ _ _⟩
  show byteLen (s.wal ++ encodeCommand ⟨KvAction.Set, k, some v⟩ ++ ['\n']) = _
  rw [byteLen_append, byteLen_append]
  rw [show byteLen ['\n'] = 1 from rfl]
  omega

/-- C4 witness: concrete store, key and value. -/
theorem set_grows_eof_and_stores_line_index_witness :
    wellTerminated emptyStore.wal ∧
    byteLen (emptyStore.set ("a".data) ("1".data)).wal
      = byteLen emptyStore.wal
        + (byteLen (encodeCommand ⟨KvAction.Set, "a".data, some ("1".data)⟩) + 1) ∧
    0 < byteLen (encodeCommand ⟨KvAction.Set, "a".data, some ("1".data)⟩) + 1 ∧
    lookupIdx (emptyStore.set ("a".data) ("1".data)).data ("a".data)
      = some (splitLines emptyStore.wal).length :=
  ⟨Or.inl rfl,
    set_grows_eof_and_stores_line_index emptyStore ("a".data) ("1".data) (Or.inl rfl)⟩

/-- C5: `remove(k)` fails with `KeyNotFound` exactly when `k` is absent
from the index (a present key can fail only with a serialization or I/O
error, never `KeyNotFound`); and after `set(k, v)`, `remove(k)` succeeds,
`get(k)` then returns `None`, and a second `remove(k)` fails with
`KeyNotFound` rather than being a no-op. -/
theorem remove_keynotfound_iff (e : IoEnv) (s : KvStore) (k v : Str) :
    ((removeFull e s k).1 = .error .keyNotFound ↔ lookupIdx s.data k = none) ∧
    ((s.set k v).remove k).1 = .ok () ∧
    ((s.set k v).remove k).2.get k = .ok none ∧
    (((s.set k v).remove k).2.remove k).1 = .error .keyNotFound := by
  have hlook : lookupIdx (s.set k v).data k
      = some ((splitLines
          (s.wal ++ encodeCommand ⟨KvAction.Set, k, some v⟩ ++ ['\n'])).length - 1) := by
    rw [set_eq]
    exact lookupIdx_insert_self _ _ _
  refine ⟨⟨?_, ?_⟩, ?_, ?_, ?_⟩
  · intro h
    rcases hl : lookupIdx s.data k with _ | i
    · rfl
    · exfalso
      rw [removeFull, hl] at h
      rcases e with ⟨so, wo, fo, sko, ro⟩
      cases so <;> cases wo <;> cases fo <;> simp_all
  · intro h
    rw [removeFull, h]
  · rw [remove_eq_some _ _ _ hlook]
  · rw [remove_eq_some _ _ _ hlook]
    rw [KvStore.get]
    simp only [lookupIdx_erase_self]
  · rw [remove_eq_some _ _ _ hlook]
    rw [remove_eq_none _ _ (lookupIdx_erase_self _ _)]

/-- C6 counterexample: with the index entry for `"k"` pointing at a `Set`
record whose key field is `"other"`, `get("k")` returns that record's
value instead of failing with an index-corruption error; and with the
entry pointing at or past end-of-file, `get("k")` returns `Ok(None)`
rather than an offset-out-of-range error. -/
theorem get_skips_defensive_checks :
    mismatchStore.get ("k".data) = .ok (some ("42".data)) ∧
    outOfRangeStore.get ("k".data) = .ok none := by
  exact ⟨by decide, by decide⟩

theorem get_eq_of_lookup (s : KvStore) (k : Str) (i : Nat)
    (h : lookupIdx s.data k = some i) :
    s.get k = (match (splitLines s.wal)[i]? with
      | some line =>
        match decodeCommand line with
        | some c =>
          match c.value with
          | some v => .ok (some v)
          | none => .error .indexNoValue
        | none => .error .decodeError
      | none => .ok none) := by
  rw [KvStore.get, h]

/-- C6 (amended): for a key present in the index, `get` performs no
defensive validation of the record against the key: if the line at the
stored position decodes to any record carrying a value, that value is
returned, whatever the record's key or action; if the record carries no
value, the index error is raised; and a position at or past the number of
lines yields `Ok(None)`, not an error. -/
theorem get_checks_only_value_presence (s : KvStore) (k l : Str) (i : Nat)
    (c : WalCommand) (hi : lookupIdx s.data k = some i) :
    ((splitLines s.wal)[i]? = some l → decodeCommand l = some c →
      ((∀ v, c.value = some v → s.get k = .ok (some v)) ∧
       (c.value = none → s.get k = .error .indexNoValue))) ∧
    ((splitLines s.wal)[i]? = none → s.get k = .ok none) := by
  rw [get_eq_of_lookup s k i hi]
  constructor
  · intro h1 h2
    simp only [h1, h2]
    constructor
    · intro v hv
      simp only [hv]
    · intro hv
      simp only [hv]
  · intro h1
    simp only [h1]

/-- C6 witness: the amended characterization instantiated on the
key-mismatch store. -/
theorem get_checks_only_value_presence_witness :
    lookupIdx mismatchStore.data ("k".data) = some 0 ∧
    (((splitLines mismatchStore.wal)[0]? = some wrongRecord →
      decodeCommand wrongRecord
          = some ⟨KvAction.Set, "other".data, some ("42".data)⟩ →
      ((∀ v, (⟨KvAction.Set, "other".data, some ("42".data)⟩ : WalCommand).value = some v →
          mismatchStore.get ("k".data) = .ok (some v)) ∧
       ((⟨KvAction.Set, "other".data, some ("42".data)⟩ : WalCommand).value = none →
          mismatchStore.get ("k".data) = .error .indexNoValue))) ∧
     ((splitLines mismatchStore.wal)[0]? = none →
        mismatchStore.get ("k".data) = .ok none)) :=
  ⟨by decide,
    get_checks_only_value_presence mismatchStore ("k".data) wrongRecord 0
      ⟨KvAction.Set, "other".data, some ("42".data)⟩ (by decide)⟩

/-- C7 counterexample: with write and flush succeeding and the subsequent
seek back to the file start failing, `set` returns an error even though
the record was appended and flushed — the log was durably extended by a
failed `set`, contradicting the claim that on failure the log is never
durably extended. -/
theorem set_can_fail_after_durable_append :
    (setFull envSeekFail emptyStore ("a".data) ("1".data)).1 = .error .ioError ∧
    (setFull envSeekFail emptyStore ("a".data) ("1".data)).2.durable
      ≠ emptyStore.durable := by
  exact ⟨by decide, by decide⟩

/-- C7 (amended): whenever `set` or `remove` returns an error, the index
is left exactly as it was before the call; a failed `remove` never
durably extends the log; a failed `set` durably extends the log only in
the runs where serialization, write and flush all succeeded and the
subsequent seek failed (the record is then durably in the log while the
index is unchanged, which replay at reopen reconciles). -/
theorem failed_mutation_preserves_index (e : IoEnv) (s : KvStore) (k v : Str) :
    (∀ err, (setFull e s k v).1 = .error err →
      ((setFull e s k v).2.data = s.data ∧
       ((setFull e s k v).2.durable ≠ s.durable →
         e.serOk = true ∧ e.writeOk = true ∧ e.flushOk = true ∧ e.seekOk = false))) ∧
    (∀ err, (removeFull e s k).1 = .error err →
      ((removeFull e s k).2.data = s.data ∧
       (removeFull e s k).2.durable = s.durable)) := by
  rcases e with ⟨so, wo, fo, sko, ro⟩
  constructor
  · intro err herr
    cases so <;> cases wo <;> cases fo <;> cases sko <;> simp_all [setFull]
  · intro err herr
    rcases hl : lookupIdx s.data k with _ | i <;>
      cases so <;> cases wo <;> cases fo <;> simp_all [removeFull]

/-- C7 witness: the amended statement instantiated on the seek-failure
run. -/
theorem failed_mutation_preserves_index_witness :
    (setFull envSeekFail emptyStore ("a".data) ("1".data)).1 = .error .ioError ∧
    (setFull envSeekFail emptyStore ("a".data) ("1".data)).2.data = emptyStore.data :=
  ⟨by decide,
    ((failed_mutation_preserves_index envSeekFail emptyStore ("a".data) ("1".data)).1
      .ioError (by decide)).1⟩

/-- C8: for every constructible log record — any of the three actions, any
key, value present or absent, keys and values arbitrary text (empty
strings, quotes, braces, backslashes, control characters, even embedded
newlines, which serialization escapes) — decoding the encoded single-line
serialization yields exactly the original record. -/
theorem decode_encode_roundtrip (r : WalCommand) :
    decodeCommand (encodeCommand r) = some r :=
  decodeCommand_encodeCommand r

/-- C9 counterexample: a line carrying the `Get` tag decodes successfully
(the derived deserializer accepts all three `KvAction` variants), and
`open`'s replay over a log containing only that line succeeds, skipping
it; decoding was claimed to fail for every tag other than `Set`/`Rm`. -/
theorem get_tag_decodes_and_replay_succeeds :
    decodeCommand ("\x7b\"action\":\"Get\",\"key\":\"x\"\x7d".data)
      = some ⟨KvAction.Get, "x".data, none⟩ ∧
    openStore ("\x7b\"action\":\"Get\",\"key\":\"x\"\x7d\n".data)
      = .ok ⟨[], "\x7b\"action\":\"Get\",\"key\":\"x\"\x7d\n".data,
             "\x7b\"action\":\"Get\",\"key\":\"x\"\x7d\n".data⟩ := by
  exact ⟨by decide, by decide⟩

/-- C9 (amended): decoding a canonical-form line fails for every action
tag other than `Set`, `Get` and `Rm`; the `Get` tag, however, is
representable — the canonical `Get` line is exactly the serialization of a
`Get` record — and `open`'s replay skips `Get` records (`continue`), so
open succeeds on a log holding a `Get` line and indexes nothing from
it. -/
theorem unknown_tag_rejected_and_get_skipped (tag k : Str)
    (h1 : ¬tag = "Set".data) (h2 : ¬tag = "Get".data) (h3 : ¬tag = "Rm".data) :
    decodeCommand (canonLine tag k) = none ∧
    canonLine ("Get".data) k = encodeCommand ⟨KvAction.Get, k, none⟩ ∧
    (∀ (d : List (Str × Nat)) (i : Nat) (kk : Str) (val : Option Str),
      replayStep d i ⟨KvAction.Get, kk, val⟩ = d) ∧
    ∀ k2 : Str, openStore (encodeCommand ⟨KvAction.Get, k2, none⟩ ++ ['\n'])
      = .ok ⟨[], encodeCommand ⟨KvAction.Get, k2, none⟩ ++ ['\n'],
             encodeCommand ⟨KvAction.Get, k2, none⟩ ++ ['\n']⟩ := by
  refine ⟨?_, ?_, fun d i kk val => rfl, ?_⟩
  · show decodeCommand
      ("\x7b\"action\":".data ++ jsonString tag ++
        ",\"key\":".data ++ jsonString k ++ "\x7d".data) = none
    rw [decodeCommand]
    rw [show "\x7b\"action\":".data ++ jsonString tag ++
        ",\"key\":".data ++ jsonString k ++ "\x7d".data
      = "\x7b\"action\":\"".data ++
        (escapeStr tag ++ '"' ::
          (",\"key\":\"".data ++ (escapeStr k ++ '"' :: "\x7d".data))) by
      simp [jsonString]]
    rw [show skipWs ("\x7b\"action\":\"".data ++
        (escapeStr tag ++ '"' ::
          (",\"key\":\"".data ++ (escapeStr k ++ '"' :: "\x7d".data))))
      = "\x7b\"action\":\"".data ++
        (escapeStr tag ++ '"' ::
          (",\"key\":\"".data ++ (escapeStr k ++ '"' :: "\x7d".data))) from rfl]
    simp only [Option.bind_eq_bind, takeLit_append, Option.some_bind]
    rw [parseStringBody_escapeStr]
    simp only [Option.some_bind]
    rw [parseTag, if_neg h1, if_neg h2, if_neg h3]
    rfl
  · simp [canonLine, encodeCommand, actionTag]
  · intro k2
    have hrep : replayLines
        (splitLines (encodeCommand ⟨KvAction.Get, k2, none⟩ ++ ['\n'])) 0 []
        = some [] := by
      rw [splitLines_single _ (encodeCommand_no_nl _) (encodeCommand_no_cr _),
        replayLines, decodeCommand_encodeCommand]
      rfl
    rw [openStore, hrep]

/-- C9 witness: a concrete unrecognized tag. -/
theorem unknown_tag_rejected_and_get_skipped_witness :
    ¬("Del".data : Str) = "Set".data ∧
    decodeCommand (canonLine ("Del".data) ("x".data)) = none :=
  ⟨by decide,
    (unknown_tag_rejected_and_get_skipped ("Del".data) ("x".data)
      (by decide) (by decide) (by decide)).1⟩

/-- C10: whenever serialization, the append (`write_all`) and the `flush`
succeed during `set`, the file contents subsequently re-read end with the
newline just appended, so splitting them into lines yields at least one
line and the `wal_commands.len() - 1` subtraction cannot underflow —
provided the re-read itself succeeds and returns those contents (its
error is discarded by the source, which is the separate issue the claim
sets aside). -/
theorem set_reread_yields_a_line (e : IoEnv) (s : KvStore) (k v : Str)
    (hs : e.serOk = true) (hw : e.writeOk = true) (hf : e.flushOk = true) :
    1 ≤ (splitLines (setFull e s k v).2.wal).length := by
  have hwal : (setFull e s k v).2.wal
      = s.wal ++ encodeCommand ⟨KvAction.Set, k, some v⟩ ++ ['\n'] := by
    rcases e with ⟨so, wo, fo, sko, ro⟩
    cases so <;> cases wo <;> cases fo <;> cases sko <;> cases ro <;>
      simp_all [setFull]
  rw [hwal]
  have hne : s.wal ++ encodeCommand ⟨KvAction.Set, k, some v⟩ ++ ['\n'] ≠ [] := by
    simp
  have hlines := splitLines_ne_nil _ hne
  exact Nat.one_le_iff_ne_zero.mpr
    (fun h0 => hlines (List.eq_nil_of_length_eq_zero h0))

/-- C10 witness: the all-success run on a concrete store. -/
theorem set_reread_yields_a_line_witness :
    allOk.serOk = true ∧ allOk.writeOk = true ∧ allOk.flushOk = true ∧
    1 ≤ (splitLines (setFull allOk emptyStore ("a".data) ("1".data)).2.wal).length :=
  ⟨rfl, rfl, rfl,
    set_reread_yields_a_line allOk emptyStore ("a".data) ("1".data) rfl rfl rfl⟩
